import Mathlib

/-!
Verification of the `differential-cryptanalysis` repository: a shallow
embedding of `sp_network.py` and `differential_cryptanalysis.py`.

Python dictionaries passed as substitution/permutation tables are modelled
as association lists `List (Nat × Nat)`; lookup with a default of `0`
mirrors `dict.get(key, 0)` used by `SP_Network.sbox`.  (For the permutation
table the Python code indexes with `permutation[i]`, which raises on a
missing key; every theorem below that touches the permutation assumes the
table is defined where the code reads it, so the default is never hit.)
Python integers are `Nat`; Python list indexing (which admits negative
indices) is modelled over `Int` indices.  The floating point probability
of `get_difference_pair_probability` is modelled as an exact rational.
-/

/-- `d.get(k, 0)` on a Python dict modelled as an association list. -/
def dictGet (d : List (Nat × Nat)) (k : Nat) : Nat :=
  ((d.find? (fun p => p.1 == k)).map (fun p => p.2)).getD 0

/-- Python list indexing `l[i]`, which allows negative indices counting
from the end.  Out-of-range access raises in Python; the model returns `0`
there, and every theorem keeps indices in range. -/
def pyListGet (l : List Nat) (i : Int) : Nat :=
  if 0 ≤ i then l.getD i.toNat 0 else l.getD ((l.length : Int) + i).toNat 0

/-- `max(l, key=f)` for a Python iterable of naturals: the first element
attaining the maximal key wins (Python keeps the current element unless the
next is strictly greater).  Python raises on an empty iterable; the model
returns `0` there. -/
def pyMaxBy (l : List Nat) (f : Nat → Nat) : Nat :=
  match l with
  | [] => 0
  | a :: rest => rest.foldl (fun acc y => if f y > f acc then y else acc) a

/-- `max(d, key=d.get)` over an insertion-ordered dict of counts, modelled
as the insertion-ordered list of `(key, count)` pairs; `none` on an empty
dict. -/
def pyMaxPairBy (l : List (Nat × Nat)) : Option Nat :=
  match l with
  | [] => none
  | p :: rest => some ((rest.foldl (fun acc q => if q.2 > acc.2 then q else acc) p).1)

/-- The `SP_Network` class of `sp_network.py`: round keys plus the
substitution and permutation dictionaries supplied to `__init__`. -/
structure SP_Network where
  keys : List Nat
  substitution : List (Nat × Nat)
  permutation : List (Nat × Nat)

namespace SP_Network

/-- `self.inv_substitution = {v: k for k, v in substitution.items()}`. -/
def inv_substitution (net : SP_Network) : List (Nat × Nat) :=
  net.substitution.map (fun p => (p.2, p.1))

/-- `self.data_size = len(substitution)`. -/
def data_size (net : SP_Network) : Nat :=
  net.substitution.length

/-- `self.rounds = len(keys) - 1` (a Python `int`, so it can be `-1`). -/
def rounds (net : SP_Network) : Int :=
  (net.keys.length : Int) - 1

/-- `keymix`: `self.keys[round_num] ^ input_data`. -/
def keymix (net : SP_Network) (round_num : Int) (input_data : Nat) : Nat :=
  pyListGet net.keys round_num ^^^ input_data

/-- `sbox`: `sbox_dict.get(input_data, 0)` with the forward or inverse
dictionary. -/
def sbox (net : SP_Network) (input_data : Nat) (invert : Bool) : Nat :=
  dictGet (if invert then net.inv_substitution else net.substitution) input_data

/-- `permute`: the loop
`for i in range(1, data_size+1): output |= ((input >> (ds - permutation[i])) & 1) << (ds - i)`. -/
def permute (net : SP_Network) (input_data : Nat) : Nat :=
  (List.range' 1 net.data_size).foldl
    (fun output_data i =>
      output_data |||
        (((input_data >>> (net.data_size - dictGet net.permutation i)) &&& 1)
          <<< (net.data_size - i)))
    0

/-- `substitute`: the loop
`for i in range(0, data_size, 4): group = (input >> (ds - i - 4)) & 0xF;
output = (output << 4) | sbox(group, invert)`, with the loop variable
`i = 4 * k`.  (For `data_size` not a multiple of 4 the Python code raises
on a negative shift; the theorems below assume `4 ∣ data_size`.) -/
def substitute (net : SP_Network) (input_data : Nat) (invert : Bool) : Nat :=
  (List.range ((net.data_size + 3) / 4)).foldl
    (fun output_data k =>
      (output_data <<< 4) |||
        net.sbox ((input_data >>> (net.data_size - 4 * k - 4)) &&& 0xF) invert)
    0

/-- `run_round`: keymix, substitute, permute. -/
def run_round (net : SP_Network) (index : Nat) (input_data : Nat) : Nat :=
  net.permute (net.substitute (net.keymix index input_data) false)

/-- `run_reverse_round`: permute, inverse substitute, keymix.  Note the
forward `permute` is applied here, exactly as in the source. -/
def run_reverse_round (net : SP_Network) (index : Nat) (input_data : Nat) : Nat :=
  net.keymix index (net.substitute (net.permute input_data) true)

/-- `run_last_round`: `keymix(rounds-1)`, substitute, `keymix(rounds)`. -/
def run_last_round (net : SP_Network) (input_data : Nat) : Nat :=
  net.keymix net.rounds (net.substitute (net.keymix (net.rounds - 1) input_data) false)

/-- `run_reverse_last_round`: `keymix(rounds)`, inverse substitute,
`keymix(rounds-1)`. -/
def run_reverse_last_round (net : SP_Network) (input_data : Nat) : Nat :=
  net.keymix (net.rounds - 1) (net.substitute (net.keymix net.rounds input_data) true)

/-- The encryption loop `for i in range(rounds - 1): buffer = run_round(i, buffer)`:
`encryptRounds c` applies rounds `0, 1, …, c-1` in that order. -/
def encryptRounds (net : SP_Network) : Nat → Nat → Nat
  | 0, buffer => buffer
  | c + 1, buffer => net.run_round c (net.encryptRounds c buffer)

/-- `encrypt`: the round loop followed by the distinguished last round. -/
def encrypt (net : SP_Network) (plain : Nat) : Nat :=
  net.run_last_round (net.encryptRounds (net.rounds - 1).toNat plain)

/-- The decryption loop `for i in range(rounds - 2, -1, -1): buffer =
run_reverse_round(i, buffer)`: `decryptRounds c` applies reverse rounds
`c-1, c-2, …, 0` in that order. -/
def decryptRounds (net : SP_Network) : Nat → Nat → Nat
  | 0, buffer => buffer
  | c + 1, buffer => net.decryptRounds c (net.run_reverse_round c buffer)

/-- `decrypt`: undo the last round, then the reverse round loop. -/
def decrypt (net : SP_Network) (cipher : Nat) : Nat :=
  net.decryptRounds (net.rounds - 1).toNat (net.run_reverse_last_round cipher)

end SP_Network

/-- `SP_Network.__init__`: raises `ValueError` exactly when the two tables
have different sizes, before any field is assigned. -/
def mkSP_Network (keys : List Nat) (substitution permutation : List (Nat × Nat)) :
    Except String SP_Network :=
  if substitution.length ≠ permutation.length then
    Except.error "Substitution and permutation dictionaries must be of the same size."
  else
    Except.ok { keys := keys, substitution := substitution, permutation := permutation }

/-- `calculate_difference_distribution` builds, for each `(Δx, Δy)`, the
count of `x in range(data_size)` with `sbox(x) ^ sbox(x ^ Δx) == Δy`.
The built dict is modelled as this counting function. -/
def difference_distribution (net : SP_Network) (delta_x delta_y : Nat) : Nat :=
  (List.range net.data_size).countP
    (fun x => net.sbox x false ^^^ net.sbox (x ^^^ delta_x) false == delta_y)

/-- `get_max_delta_y`: `max(delta_y_dict, key=delta_y_dict.get)`; the dict
for a fixed `Δx` has keys `0, 1, …, data_size-1` in insertion order. -/
def get_max_delta_y (net : SP_Network) (delta_x : Nat) : Nat :=
  pyMaxBy (List.range net.data_size) (fun dy => difference_distribution net delta_x dy)

/-- `get_active_sboxes`: the loop
`for i in range(4): if (input >> (i*4)) & 0xF > 0: active.append(4 - i)`. -/
def get_active_sboxes (input_data : Nat) : List Nat :=
  ((List.range 4).filter (fun i => 0 < (input_data >>> (i * 4)) &&& 0xF)).map
    (fun i => 4 - i)

/-- `get_output_difference`: OR together, for each active S-box `i`, the
most frequent output difference of that S-box's input difference, shifted
back into position. -/
def get_output_difference (net : SP_Network) (input_difference : Nat) : Nat :=
  (get_active_sboxes input_difference).foldl
    (fun output i =>
      output |||
        (get_max_delta_y net ((input_difference >>> (net.data_size - i * 4)) &&& 0xF)
          <<< (net.data_size - i * 4)))
    0

/-- `get_difference_pair_probability`: product over the four nibble
positions of `table[Δx][Δy] / data_size`, skipping positions with
`Δx == Δy == 0`.  The Python float is modelled as an exact rational. -/
def get_difference_pair_probability (net : SP_Network) (u v : Nat) : ℚ :=
  (List.range 4).foldl
    (fun probability i =>
      if (u >>> (i * 4)) &&& 0xF = 0 ∧ (v >>> (i * 4)) &&& 0xF = 0 then
        probability
      else
        probability *
          ((difference_distribution net ((u >>> (i * 4)) &&& 0xF)
              ((v >>> (i * 4)) &&& 0xF) : ℚ) / (net.data_size : ℚ)))
    1

/-- `get_delta_p`: `delta_x << (data_size - target_sbox * 4)`. -/
def get_delta_p (net : SP_Network) (delta_x target_sbox : Nat) : Nat :=
  delta_x <<< (net.data_size - target_sbox * 4)

/-- One iteration of the `get_differential_characteristic` loop:
`v = get_output_difference(u); probability *= pair_probability(u, v);
u = permute(v)`, iterated a given number of times. -/
def diffCharRounds (net : SP_Network) : Nat → Nat × ℚ → Nat × ℚ
  | 0, state => state
  | n + 1, state =>
      diffCharRounds net n
        (net.permute (get_output_difference net state.1),
         state.2 * get_difference_pair_probability net state.1
           (get_output_difference net state.1))

/-- `get_differential_characteristic`: run the loop `rounds - 1` times
starting from `(Δp, 1)`. -/
def get_differential_characteristic (net : SP_Network) (delta_p : Nat) : Nat × ℚ :=
  diffCharRounds net (net.rounds - 1).toNat (delta_p, 1)

/-- `convert_to_block`: split `data` into `len(active_sboxes)` nibbles
(most significant first, via the `groups.insert(0, …)` loop) and OR each
nibble into the block position of the corresponding active S-box. -/
def convert_to_block (net : SP_Network) (active_sboxes : List Nat) (data : Nat) : Nat :=
  let n := active_sboxes.length
  let groups := (List.range n).map (fun j => (data >>> (4 * (n - 1 - j))) &&& 0xF)
  (List.range n).foldl
    (fun output j =>
      output ||| (groups.getD j 0 <<< (net.data_size - active_sboxes.getD j 0 * 4)))
    0

/-- `check_expected_difference`: the XOR of two partial decryptions equals
the differential characteristic. -/
def check_expected_difference (pd1 pd2 diff_characteristic : Nat) : Bool :=
  pd1 ^^^ pd2 == diff_characteristic

/-- `partial_decrypt` in the source: XOR the ciphertext with the candidate
subkey, then invert the substitution layer. -/
def part_decrypt (net : SP_Network) (ciphertext subkey_value : Nat) : Nat :=
  net.substitute (ciphertext ^^^ subkey_value) true

/-- The per-candidate score of `perform_attack`:
`count = sum(check_expected_difference(partial_decrypt(c1, subkey),
partial_decrypt(c2, subkey), diff_characteristic) for c1, c2 in pairs)`. -/
def attack_count (net : SP_Network) (ciphertext_pairs : List (Nat × Nat))
    (diff_characteristic subkey : Nat) : Nat :=
  ciphertext_pairs.countP (fun pr =>
    check_expected_difference (part_decrypt net pr.1 subkey)
      (part_decrypt net pr.2 subkey) diff_characteristic)

/-- `perform_attack`: enumerate candidate subkeys `i = 1 … num_of_keys-1`
(converted into block position), count over all ciphertext pairs how many
satisfy the expected difference, and return the first candidate with the
maximal count (`max` over the insertion-ordered dict), or `None` when the
dict stayed empty.  `convert_to_block` is injective on the enumerated
range for distinct active positions, and any duplicate keys would carry
equal counts, so the insertion-ordered list model coincides with the
Python dict. -/
def perform_attack (net : SP_Network) (ciphertext_pairs : List (Nat × Nat))
    (diff_characteristic : Nat) : Option Nat :=
  let active_sboxes := get_active_sboxes diff_characteristic
  let num_of_keys := (2 ^ 4) ^ active_sboxes.length
  pyMaxPairBy ((List.range' 1 (num_of_keys - 1)).map
    (fun i =>
      let subkey := convert_to_block net active_sboxes i
      (subkey, attack_count net ciphertext_pairs diff_characteristic subkey)))

/-- `extract_subkey_bits`: the non-zero nibbles of a 16-bit subkey, most
significant first (`format(v, '016b')` splits into four 4-bit groups). -/
def extract_subkey_bits (net : SP_Network) (subkey_value : Nat) : List Nat :=
  ((List.range (net.data_size / 4)).filter
      (fun j => (subkey_value >>> (net.data_size - 4 - 4 * j)) &&& 0xF ≠ 0)).map
    (fun j => (subkey_value >>> (net.data_size - 4 - 4 * j)) &&& 0xF)

/-- The concrete network of `main.py`: keys `[1, 2, 3, 4, 516]`, the
16-entry substitution and permutation tables. -/
def mainNet : SP_Network :=
  { keys := [1, 2, 3, 4, 516]
    substitution :=
      [(0, 14), (1, 4), (2, 13), (3, 1), (4, 2), (5, 15), (6, 11), (7, 8),
       (8, 3), (9, 10), (10, 6), (11, 12), (12, 5), (13, 9), (14, 0), (15, 7)]
    permutation :=
      [(1, 1), (2, 5), (3, 9), (4, 13), (5, 2), (6, 6), (7, 10), (8, 14),
       (9, 3), (10, 7), (11, 11), (12, 15), (13, 4), (14, 8), (15, 12), (16, 16)] }

/-- Big-endian accumulation of `m` nibbles, the recursive form of the
`substitute` loop. -/
def nibFold (f : Nat → Nat) : Nat → Nat
  | 0 => 0
  | m + 1 => (nibFold f m <<< 4) ||| f m

/-- The counterexample network for C1: identity substitution (a bijection
of `{0 .. 15}`), a permutation table that is a bijection of `{1 .. 16}` but
not an involution (it contains the 3-cycle `1 → 2 → 3 → 1`), and in-range
round keys. -/
def cexNet : SP_Network :=
  { keys := [0, 0, 0]
    substitution :=
      [(0, 0), (1, 1), (2, 2), (3, 3), (4, 4), (5, 5), (6, 6), (7, 7),
       (8, 8), (9, 9), (10, 10), (11, 11), (12, 12), (13, 13), (14, 14), (15, 15)]
    permutation :=
      [(1, 2), (2, 3), (3, 1), (4, 4), (5, 5), (6, 6), (7, 7), (8, 8),
       (9, 9), (10, 10), (11, 11), (12, 12), (13, 13), (14, 14), (15, 15), (16, 16)] }

/-- The counterexample network for C10: a 16-entry substitution table
whose values all lie in `[0, 16)` but whose first key is `2^20`; the
inverse substitution maps the nibble `0` to `2^20`, so decryption leaves
`[0, 2^16)`. -/
def badNet : SP_Network :=
  { keys := [0, 0]
    substitution :=
      [(1048576, 0), (1, 1), (2, 2), (3, 3), (4, 4), (5, 5), (6, 6), (7, 7),
       (8, 8), (9, 9), (10, 10), (11, 11), (12, 12), (13, 13), (14, 14), (15, 15)]
    permutation :=
      [(1, 1), (2, 2), (3, 3), (4, 4), (5, 5), (6, 6), (7, 7), (8, 8),
       (9, 9), (10, 10), (11, 11), (12, 12), (13, 13), (14, 14), (15, 15), (16, 16)] }

/-! ### Helper lemmas: single bits and OR-folds -/

theorem testBit_one_nat (j : Nat) : (1 : Nat).testBit j = decide (j = 0) := by
  cases j with
  | zero => simp
  | succ j =>
      have h : (1 : Nat) < 2 ^ (j + 1) := Nat.one_lt_two_pow_iff.mpr (by omega)
      simp [Nat.testBit_eq_false_of_lt h]

theorem foldl_or_testBit (term : Nat → Nat) (l : List Nat) (acc t : Nat) :
    (l.foldl (fun o i => o ||| term i) acc).testBit t =
      (acc.testBit t || l.any (fun i => (term i).testBit t)) := by
  induction l generalizing acc with
  | nil => simp
  | cons a l ih =>
      simp only [List.foldl_cons, List.any_cons]
      rw [ih, Nat.testBit_or, Bool.or_assoc]

theorem single_bit_testBit (x s p t : Nat) :
    (((x >>> s) &&& 1) <<< p).testBit t = (decide (t = p) && x.testBit s) := by
  rw [Nat.testBit_shiftLeft]
  rcases Nat.lt_trichotomy t p with h | h | h
  · have h1 : decide (t ≥ p) = false := by simp; omega
    have h2 : decide (t = p) = false := by simp; omega
    rw [h1, h2, Bool.false_and, Bool.false_and]
  · subst h
    have h1 : decide (t ≥ t) = true := by simp
    have h2 : decide (t = t) = true := by simp
    rw [h1, h2, Bool.true_and, Bool.true_and, Nat.sub_self, Nat.testBit_and,
      testBit_one_nat, Nat.testBit_shiftRight]
    simp
  · have h1 : decide (t ≥ p) = true := by simp; omega
    have h2 : decide (t = p) = false := by simp; omega
    rw [h1, h2, Bool.true_and, Bool.false_and]
    apply Nat.testBit_eq_false_of_lt
    have hlt : (x >>> s) &&& 1 < 2 := by
      rw [Nat.and_one_is_mod]; exact Nat.mod_lt _ (by norm_num)
    calc (x >>> s) &&& 1 < 2 := hlt
      _ = 2 ^ 1 := rfl
      _ ≤ 2 ^ (t - p) := Nat.pow_le_pow_right (by norm_num) (by omega)

/-! ### Helper lemmas: dictionary lookups -/

theorem dictGet_eq_zero_or_mem (d : List (Nat × Nat)) (k : Nat) :
    dictGet d k = 0 ∨ ∃ p ∈ d, p.1 = k ∧ dictGet d k = p.2 := by
  unfold dictGet
  cases h : d.find? (fun p => p.1 == k) with
  | none => left; rfl
  | some p =>
      right
      refine ⟨p, List.mem_of_find?_eq_some h, ?_, rfl⟩
      have := List.find?_some h
      simpa using this

theorem sbox_lt_of_values_lt {net : SP_Network} {B : Nat} (hB : 0 < B)
    (h : ∀ p ∈ net.substitution, p.2 < B) (v : Nat) : net.sbox v false < B := by
  show dictGet net.substitution v < B
  rcases dictGet_eq_zero_or_mem net.substitution v with h0 | ⟨p, hp, _, he⟩
  · simpa [h0] using hB
  · simpa [he] using h p hp

theorem sbox_inv_lt_of_keys_lt {net : SP_Network} {B : Nat} (hB : 0 < B)
    (h : ∀ p ∈ net.substitution, p.1 < B) (v : Nat) : net.sbox v true < B := by
  show dictGet net.inv_substitution v < B
  rcases dictGet_eq_zero_or_mem net.inv_substitution v with h0 | ⟨p, hp, _, he⟩
  · simpa [h0] using hB
  · rw [he]
    unfold SP_Network.inv_substitution at hp
    rcases List.mem_map.mp hp with ⟨q, hq, rfl⟩
    exact h q hq

/-! ### Helper lemmas: Python list indexing -/

theorem pyListGet_lt {l : List Nat} {B : Nat} (hB : 0 < B)
    (h : ∀ k ∈ l, k < B) (i : Int) : pyListGet l i < B := by
  have aux : ∀ n : Nat, l.getD n 0 < B := by
    intro n
    rw [List.getD_eq_getElem?_getD]
    cases hg : l[n]? with
    | none => simpa [hg] using hB
    | some a => simpa [hg] using h a (List.getElem?_mem hg)
  unfold pyListGet
  split <;> exact aux _

/-! ### Helper lemmas: big-endian nibble folds (the `substitute` loop) -/

theorem foldl_range_eq_nibFold (f : Nat → Nat) (m : Nat) :
    (List.range m).foldl (fun o k => (o <<< 4) ||| f k) 0 = nibFold f m := by
  induction m with
  | zero => rfl
  | succ m ih => rw [List.range_succ, List.foldl_append, ih]; rfl

theorem nibFold_congr {f g : Nat → Nat} (m : Nat) (h : ∀ k < m, f k = g k) :
    nibFold f m = nibFold g m := by
  induction m with
  | zero => rfl
  | succ m ih =>
      unfold nibFold
      rw [ih (fun k hk => h k (Nat.lt_succ_of_lt hk)), h m (Nat.lt_succ_self m)]

theorem shiftLeft_four_or_eq {a b : Nat} (hb : b < 16) :
    (a <<< 4) ||| b = 16 * a + b := by
  have e4 : (2 : Nat) ^ 4 = 16 := by norm_num
  have hb16 : b < 2 ^ 4 := e4 ▸ hb
  have h1 : a <<< 4 = 2 ^ 4 * a := by rw [Nat.shiftLeft_eq, Nat.mul_comm]
  rw [h1, ← Nat.mul_add_lt_is_or hb16 a]

theorem nibFold_succ_arith {f : Nat → Nat} {m : Nat} (hfm : f m < 16) :
    nibFold f (m + 1) = 16 * nibFold f m + f m :=
  shiftLeft_four_or_eq hfm

theorem and_fifteen_eq_mod (x : Nat) : x &&& 15 = x % 16 := by
  have h15 : (15 : Nat) = 2 ^ 4 - 1 := by norm_num
  have h16 : (16 : Nat) = 2 ^ 4 := by norm_num
  rw [h15, h16, Nat.and_pow_two_sub_one_eq_mod]

theorem nibFold_digit {f : Nat → Nat} (m : Nat) (hf : ∀ k < m, f k < 16) :
    ∀ j < m, (nibFold f m >>> (4 * (m - 1 - j))) &&& 15 = f j := by
  induction m with
  | zero => intro j hj; omega
  | succ m ih =>
      intro j hj
      have hfm : f m < 16 := hf m (Nat.lt_succ_self m)
      have harith : nibFold f (m + 1) = 16 * nibFold f m + f m := nibFold_succ_arith hfm
      rcases Nat.lt_or_ge j m with hjm | hjm
      · have hs : 4 * (m + 1 - 1 - j) = 4 + 4 * (m - 1 - j) := by omega
        rw [harith, hs, Nat.shiftRight_add]
        have hdiv : (16 * nibFold f m + f m) >>> 4 = nibFold f m := by
          rw [Nat.shiftRight_eq_div_pow]
          have : (16 * nibFold f m + f m) / 2 ^ 4 = nibFold f m + f m / 2 ^ 4 := by
            have h16 : (2 : Nat) ^ 4 = 16 := by norm_num
            rw [h16]
            exact Nat.mul_add_div (by norm_num) _ _
          rw [this]
          have : f m / 2 ^ 4 = 0 := Nat.div_eq_of_lt (by norm_num; omega)
          omega
        rw [hdiv]
        exact ih (fun k hk => hf k (Nat.lt_succ_of_lt hk)) j hjm
      · have hj_eq : j = m := by omega
        subst hj_eq
        have hs : 4 * (j + 1 - 1 - j) = 0 := by omega
        rw [harith, hs, Nat.shiftRight_zero, and_fifteen_eq_mod,
          Nat.mul_add_mod, Nat.mod_eq_of_lt hfm]

theorem nibFold_reconstruct (m : Nat) :
    ∀ x, x < 2 ^ (4 * m) →
      nibFold (fun k => (x >>> (4 * (m - 1 - k))) &&& 15) m = x := by
  induction m with
  | zero =>
      intro x hx
      interval_cases x
      rfl
  | succ m ih =>
      intro x hx
      have step : nibFold (fun k => (x >>> (4 * (m + 1 - 1 - k))) &&& 15) (m + 1) =
          (nibFold (fun k => (x >>> (4 * (m + 1 - 1 - k))) &&& 15) m <<< 4) |||
            ((x >>> (4 * (m + 1 - 1 - m))) &&& 15) := rfl
      have hlow : (x >>> (4 * (m + 1 - 1 - m))) &&& 15 = x % 16 := by
        have : 4 * (m + 1 - 1 - m) = 0 := by omega
        rw [this, Nat.shiftRight_zero, and_fifteen_eq_mod]
      have hcongr : nibFold (fun k => (x >>> (4 * (m + 1 - 1 - k))) &&& 15) m =
          nibFold (fun k => ((x >>> 4) >>> (4 * (m - 1 - k))) &&& 15) m := by
        apply nibFold_congr
        intro k hk
        have : 4 * (m + 1 - 1 - k) = 4 + 4 * (m - 1 - k) := by omega
        rw [this, Nat.shiftRight_add]
      have hx4 : x >>> 4 < 2 ^ (4 * m) := by
        rw [Nat.shiftRight_eq_div_pow]
        have h16 : (2 : Nat) ^ 4 = 16 := by norm_num
        rw [h16]
        have : x < 16 * 2 ^ (4 * m) := by
          have : 4 * (m + 1) = 4 * m + 4 := by omega
          rw [this, Nat.pow_add] at hx
          calc x < 2 ^ (4 * m) * 2 ^ 4 := hx
            _ = 16 * 2 ^ (4 * m) := by ring
        omega
      have hrec := ih (x >>> 4) hx4
      rw [step, hlow, hcongr, hrec]
      have hx4div : x >>> 4 = x / 16 := by
        rw [Nat.shiftRight_eq_div_pow]
      rw [hx4div, shiftLeft_four_or_eq (Nat.mod_lt x (by norm_num)), Nat.div_add_mod]

theorem nibFold_lt {f : Nat → Nat} (m : Nat) (hf : ∀ k < m, f k < 16) :
    nibFold f m < 2 ^ (4 * m) := by
  induction m with
  | zero => simp [nibFold]
  | succ m ih =>
      have hm : nibFold f m < 2 ^ (4 * m) := ih (fun k hk => hf k (Nat.lt_succ_of_lt hk))
      have hfm : f m < 16 := hf m (Nat.lt_succ_self m)
      unfold nibFold
      apply Nat.or_lt_two_pow
      · have := Nat.shiftLeft_lt hm (m := 4)
        have e : 4 * m + 4 = 4 * (m + 1) := by ring
        simpa [e] using this
      · calc f m < 16 := hfm
          _ ≤ 2 ^ (4 * (m + 1)) := by
              have : (16 : Nat) = 2 ^ 4 := by norm_num
              rw [this]
              exact Nat.pow_le_pow_right (by norm_num) (by omega)

theorem substitute_eq_nibFold (net : SP_Network) (x : Nat) (inv : Bool) :
    net.substitute x inv =
      nibFold (fun k => net.sbox ((x >>> (net.data_size - 4 * k - 4)) &&& 0xF) inv)
        ((net.data_size + 3) / 4) :=
  foldl_range_eq_nibFold _ _

theorem nibble_and_lt (y s : Nat) : (y >>> s) &&& 0xF < 16 := by
  rw [show (0xF : Nat) = 15 from rfl, and_fifteen_eq_mod]
  exact Nat.mod_lt _ (by norm_num)

theorem substitute_lt {net : SP_Network} {inv : Bool}
    (hs : ∀ v < 16, net.sbox v inv < 16) (x : Nat) :
    net.substitute x inv < 2 ^ (4 * ((net.data_size + 3) / 4)) := by
  rw [substitute_eq_nibFold]
  exact nibFold_lt _ (fun k _ => hs _ (nibble_and_lt x _))

theorem substitute_lt_data_size {net : SP_Network} {inv : Bool}
    (h4 : 4 ∣ net.data_size) (hs : ∀ v < 16, net.sbox v inv < 16) (x : Nat) :
    net.substitute x inv < 2 ^ net.data_size := by
  have e : 4 * ((net.data_size + 3) / 4) = net.data_size := by omega
  exact e ▸ substitute_lt hs x

theorem substitute_inverse {net : SP_Network}
    (h4 : 4 ∣ net.data_size)
    (h1 : ∀ v < 16, net.sbox v false < 16)
    (h2 : ∀ v < 16, net.sbox (net.sbox v false) true = v)
    {x : Nat} (hx : x < 2 ^ net.data_size) :
    net.substitute (net.substitute x false) true = x := by
  have hdm : 4 * ((net.data_size + 3) / 4) = net.data_size := by omega
  have hshift : ∀ k < (net.data_size + 3) / 4,
      net.data_size - 4 * k - 4 = 4 * ((net.data_size + 3) / 4 - 1 - k) := by
    intro k hk; omega
  have hF : ∀ k < (net.data_size + 3) / 4,
      net.sbox ((x >>> (net.data_size - 4 * k - 4)) &&& 0xF) false < 16 :=
    fun k _ => h1 _ (nibble_and_lt x _)
  rw [substitute_eq_nibFold, substitute_eq_nibFold net x false]
  have hcongr : nibFold
      (fun k => net.sbox
        ((nibFold (fun j => net.sbox ((x >>> (net.data_size - 4 * j - 4)) &&& 0xF) false)
            ((net.data_size + 3) / 4) >>> (net.data_size - 4 * k - 4)) &&& 0xF) true)
      ((net.data_size + 3) / 4) =
      nibFold (fun k => (x >>> (net.data_size - 4 * k - 4)) &&& 0xF)
        ((net.data_size + 3) / 4) := by
    apply nibFold_congr
    intro k hk
    rw [hshift k hk,
      nibFold_digit ((net.data_size + 3) / 4) hF k hk]
    rw [← hshift k hk]
    exact h2 _ (nibble_and_lt x _)
  rw [hcongr]
  have hrec := nibFold_reconstruct ((net.data_size + 3) / 4) x (by rw [hdm]; exact hx)
  refine Eq.trans ?_ hrec
  apply nibFold_congr
  intro k hk
  rw [hshift k hk]

theorem permute_testBit_any (net : SP_Network) (x t : Nat) :
    (net.permute x).testBit t =
      (List.range' 1 net.data_size).any
        (fun j => (decide (t = net.data_size - j) &&
          x.testBit (net.data_size - dictGet net.permutation j))) := by
  have h : (net.permute x).testBit t =
      ((0 : Nat).testBit t || (List.range' 1 net.data_size).any
        (fun j => ((((x >>> (net.data_size - dictGet net.permutation j)) &&& 1)
          <<< (net.data_size - j))).testBit t)) :=
    foldl_or_testBit _ _ _ _
  rw [h, Nat.zero_testBit, Bool.false_or]
  have he : (fun j => ((((x >>> (net.data_size - dictGet net.permutation j)) &&& 1)
        <<< (net.data_size - j))).testBit t) =
      (fun j => (decide (t = net.data_size - j) &&
        x.testBit (net.data_size - dictGet net.permutation j))) :=
    funext fun j => single_bit_testBit _ _ _ _
  rw [he]

theorem permute_testBit (net : SP_Network) (x : Nat) {i : Nat}
    (h1 : 1 ≤ i) (h2 : i ≤ net.data_size) :
    (net.permute x).testBit (net.data_size - i) =
      x.testBit (net.data_size - dictGet net.permutation i) := by
  rw [permute_testBit_any]
  cases hx : x.testBit (net.data_size - dictGet net.permutation i) with
  | true =>
      apply List.any_eq_true.mpr
      refine ⟨i, ?_, ?_⟩
      · rw [List.mem_range'_1]; omega
      · simp [hx]
  | false =>
      apply List.any_eq_false.mpr
      intro j hj
      rw [List.mem_range'_1] at hj
      by_cases he : i = j
      · subst he
        simp [hx]
      · have : decide (net.data_size - i = net.data_size - j) = false := by
          simp; omega
        simp [this]

theorem permute_lt (net : SP_Network) (x : Nat) :
    net.permute x < 2 ^ net.data_size := by
  apply Nat.lt_pow_two_of_testBit
  intro t ht
  rw [permute_testBit_any]
  apply List.any_eq_false.mpr
  intro j hj
  rw [List.mem_range'_1] at hj
  have : decide (t = net.data_size - j) = false := by simp; omega
  simp [this]

theorem permute_permute {net : SP_Network}
    (hq : ∀ i, 1 ≤ i → i ≤ net.data_size →
      (1 ≤ dictGet net.permutation i ∧ dictGet net.permutation i ≤ net.data_size) ∧
        dictGet net.permutation (dictGet net.permutation i) = i)
    {x : Nat} (hx : x < 2 ^ net.data_size) :
    net.permute (net.permute x) = x := by
  apply Nat.eq_of_testBit_eq
  intro t
  rcases Nat.lt_or_ge t net.data_size with ht | ht
  · have hi1 : 1 ≤ net.data_size - t := by omega
    have hi2 : net.data_size - t ≤ net.data_size := by omega
    have hti : net.data_size - (net.data_size - t) = t := by omega
    obtain ⟨⟨hq1, hq2⟩, hqq⟩ := hq (net.data_size - t) hi1 hi2
    have ha := permute_testBit net (net.permute x) hi1 hi2
    have hb := permute_testBit net x hq1 hq2
    rw [hti] at ha
    rw [ha, hb, hqq, hti]
  · have hbound : 2 ^ net.data_size ≤ 2 ^ t := Nat.pow_le_pow_right (by norm_num) ht
    rw [Nat.testBit_eq_false_of_lt (Nat.lt_of_lt_of_le (permute_lt net _) hbound),
      Nat.testBit_eq_false_of_lt (Nat.lt_of_lt_of_le hx hbound)]

theorem keymix_keymix (net : SP_Network) (r : Int) (x : Nat) :
    net.keymix r (net.keymix r x) = x := by
  unfold SP_Network.keymix
  rw [← Nat.xor_assoc, Nat.xor_self, Nat.zero_xor]

theorem keymix_lt {net : SP_Network} {B : Nat}
    (hk : ∀ k ∈ net.keys, k < 2 ^ B) {x : Nat} (hx : x < 2 ^ B) (r : Int) :
    net.keymix r x < 2 ^ B := by
  exact Nat.xor_lt_two_pow (pyListGet_lt (Nat.pos_pow_of_pos B (by norm_num)) hk r) hx

/-! ### Round-trip lemmas for the SP network -/

theorem run_reverse_round_run_round {net : SP_Network}
    (h4 : 4 ∣ net.data_size)
    (h1 : ∀ v < 16, net.sbox v false < 16)
    (h2 : ∀ v < 16, net.sbox (net.sbox v false) true = v)
    (hq : ∀ i, 1 ≤ i → i ≤ net.data_size →
      (1 ≤ dictGet net.permutation i ∧ dictGet net.permutation i ≤ net.data_size) ∧
        dictGet net.permutation (dictGet net.permutation i) = i)
    (hk : ∀ k ∈ net.keys, k < 2 ^ net.data_size)
    {x : Nat} (hx : x < 2 ^ net.data_size) (i : Nat) :
    net.run_reverse_round i (net.run_round i x) = x := by
  unfold SP_Network.run_round SP_Network.run_reverse_round
  rw [permute_permute hq (substitute_lt_data_size h4 h1 _),
    substitute_inverse h4 h1 h2 (keymix_lt hk hx _), keymix_keymix]

theorem encryptRounds_lt {net : SP_Network} {x : Nat}
    (hx : x < 2 ^ net.data_size) (c : Nat) :
    net.encryptRounds c x < 2 ^ net.data_size := by
  cases c with
  | zero => exact hx
  | succ c => exact permute_lt net _

theorem decryptRounds_encryptRounds {net : SP_Network}
    (h4 : 4 ∣ net.data_size)
    (h1 : ∀ v < 16, net.sbox v false < 16)
    (h2 : ∀ v < 16, net.sbox (net.sbox v false) true = v)
    (hq : ∀ i, 1 ≤ i → i ≤ net.data_size →
      (1 ≤ dictGet net.permutation i ∧ dictGet net.permutation i ≤ net.data_size) ∧
        dictGet net.permutation (dictGet net.permutation i) = i)
    (hk : ∀ k ∈ net.keys, k < 2 ^ net.data_size)
    {x : Nat} (hx : x < 2 ^ net.data_size) (c : Nat) :
    net.decryptRounds c (net.encryptRounds c x) = x := by
  induction c with
  | zero => rfl
  | succ c ih =>
      show net.decryptRounds c (net.run_reverse_round c
        (net.run_round c (net.encryptRounds c x))) = x
      rw [run_reverse_round_run_round h4 h1 h2 hq hk (encryptRounds_lt hx c) c]
      exact ih

theorem run_reverse_last_round_run_last_round {net : SP_Network}
    (h4 : 4 ∣ net.data_size)
    (h1 : ∀ v < 16, net.sbox v false < 16)
    (h2 : ∀ v < 16, net.sbox (net.sbox v false) true = v)
    (hk : ∀ k ∈ net.keys, k < 2 ^ net.data_size)
    {x : Nat} (hx : x < 2 ^ net.data_size) :
    net.run_reverse_last_round (net.run_last_round x) = x := by
  unfold SP_Network.run_last_round SP_Network.run_reverse_last_round
  rw [keymix_keymix, substitute_inverse h4 h1 h2 (keymix_lt hk hx _), keymix_keymix]

/-- **C1, counterexample.**  The claim "for every valid cipher spec (round
keys in `[0, 2^N)`, substitution and permutation tables total bijections
over their domains) and every plaintext `x < 2^N`,
`decrypt(encrypt(x)) = x`" is false: `cexNet` is such a spec (`N = 16`,
round keys in range, substitution the identity bijection of `{0..15}`,
permutation a bijection of `{1..16}`), yet decrypting the encryption of
the plaintext `8192` yields `32768`.  The cause: `run_reverse_round`
re-applies the forward `permute`, which only undoes the encryption's
permutation when the permutation table is an involution. -/
theorem C1_roundtrip_counterexample :
    cexNet.data_size = 16 ∧
    (∀ k ∈ cexNet.keys, k < 2 ^ 16) ∧
    (∀ v < 16, dictGet cexNet.substitution v = v) ∧
    (∀ i < 17, 1 ≤ i →
      1 ≤ dictGet cexNet.permutation i ∧ dictGet cexNet.permutation i ≤ 16) ∧
    (∀ i < 17, ∀ j < 17, 1 ≤ i → 1 ≤ j →
      dictGet cexNet.permutation i = dictGet cexNet.permutation j → i = j) ∧
    8192 < 2 ^ 16 ∧
    cexNet.decrypt (cexNet.encrypt 8192) = 32768 := by
  refine ⟨rfl, by decide, by decide, by decide, by decide, by decide, by decide⟩

/-- **C1 (amended).**  Round-trip correctness of the cipher: for every
cipher spec whose block width is a multiple of 4, whose round keys lie in
`[0, 2^N)`, whose substitution table restricts to a bijection of the
nibble domain `{0 .. 15}` (stated through its lookup function: values of
nibbles are nibbles, and the inverse lookup undoes the forward lookup),
and whose permutation table is a bijection of `{1 .. N}` that is moreover
an **involution** (`permutation[permutation[i]] = i`),
`decrypt(encrypt(x)) = x` holds for every plaintext `x < 2^N`.  The
involution hypothesis is the amendment forced by
`C1_roundtrip_counterexample`. -/
theorem C1_roundtrip_involution (net : SP_Network)
    (h4 : 4 ∣ net.data_size)
    (hk : ∀ k ∈ net.keys, k < 2 ^ net.data_size)
    (h1 : ∀ v < 16, net.sbox v false < 16)
    (h2 : ∀ v < 16, net.sbox (net.sbox v false) true = v)
    (hq : ∀ i, 1 ≤ i → i ≤ net.data_size →
      (1 ≤ dictGet net.permutation i ∧ dictGet net.permutation i ≤ net.data_size) ∧
        dictGet net.permutation (dictGet net.permutation i) = i)
    (x : Nat) (hx : x < 2 ^ net.data_size) :
    net.decrypt (net.encrypt x) = x := by
  unfold SP_Network.encrypt SP_Network.decrypt
  rw [run_reverse_last_round_run_last_round h4 h1 h2 hk
    (encryptRounds_lt hx (net.rounds - 1).toNat)]
  exact decryptRounds_encryptRounds h4 h1 h2 hq hk hx _

/-- Witness for C1: the amended round-trip theorem applies to the concrete
network of `main.py` and recovers the plaintext `782` used there. -/
theorem C1_roundtrip_involution_witness :
    mainNet.decrypt (mainNet.encrypt 782) = 782 :=
  C1_roundtrip_involution mainNet (by decide) (by decide) (by decide)
    (by decide) (by decide) 782 (by decide)

/-! ### C7, C8: constructor check and active-nibble extraction -/

/-- **C7.**  Constructing a cipher spec fails with a configuration error
exactly when the substitution and permutation tables have different sizes
(the check performed by `SP_Network.__init__` before any field is set, so
no cipher operation can proceed on such a spec), and construction with
equal-sized tables succeeds, returning the assembled network. -/
theorem C7_constructor_size_check (keys : List Nat)
    (substitution permutation : List (Nat × Nat)) :
    ((∃ e, mkSP_Network keys substitution permutation = Except.error e) ↔
      substitution.length ≠ permutation.length) ∧
    (substitution.length = permutation.length →
      mkSP_Network keys substitution permutation =
        Except.ok { keys := keys, substitution := substitution,
                    permutation := permutation }) := by
  unfold mkSP_Network
  by_cases h : substitution.length = permutation.length
  · simp [h]
  · simp [h]

/-- Witness for C7: the `main.py` tables (equal sizes) construct
successfully, while dropping one permutation entry yields the
configuration error. -/
theorem C7_constructor_size_check_witness :
    mkSP_Network mainNet.keys mainNet.substitution mainNet.permutation =
      Except.ok { keys := mainNet.keys, substitution := mainNet.substitution,
                  permutation := mainNet.permutation } ∧
    ∃ e, mkSP_Network mainNet.keys mainNet.substitution
      (mainNet.permutation.take 15) = Except.error e :=
  ⟨(C7_constructor_size_check mainNet.keys mainNet.substitution
      mainNet.permutation).2 (by decide),
   (C7_constructor_size_check mainNet.keys mainNet.substitution
      (mainNet.permutation.take 15)).1.mpr (by decide)⟩

/-- **C8.**  Active-nibble extraction on the 16-bit block `0x1003`
(binary `0001 0000 0000 0011`) returns exactly `[4, 1]`: the loop scans
nibbles from least significant (`i = 0`, labelled position `4`) to most
significant (`i = 3`, labelled position `1`), appending the label of each
non-zero nibble. -/
theorem C8_active_sboxes_0x1003 : get_active_sboxes 0x1003 = [4, 1] := by
  decide

/-! ### C2: when the attack produces a candidate -/

theorem pyMaxPairBy_isSome (l : List (Nat × Nat)) :
    (∃ k, pyMaxPairBy l = some k) ↔ l ≠ [] := by
  cases l with
  | nil => simp [pyMaxPairBy]
  | cons p rest => simp [pyMaxPairBy]

/-- **C2 (amended).**  `perform_attack` returns a subkey candidate **iff**
the target difference characteristic has at least one active S-box (a
non-zero nibble among its four low-order nibbles), regardless of how many
ciphertext pairs are supplied.  In particular it returns a candidate even
for an empty pair list, and returns no result for a characteristic with
no active nibbles even when pairs are supplied. -/
theorem C2_attack_some_iff_active (net : SP_Network)
    (ciphertext_pairs : List (Nat × Nat)) (diff_characteristic : Nat) :
    (∃ k, perform_attack net ciphertext_pairs diff_characteristic = some k) ↔
      get_active_sboxes diff_characteristic ≠ [] := by
  refine Iff.trans (pyMaxPairBy_isSome _) ?_
  rw [Ne, List.map_eq_nil_iff, List.range'_eq_nil]
  constructor
  · intro h he
    apply h
    rw [he]
    rfl
  · intro h hn
    apply h
    have hl : (get_active_sboxes diff_characteristic).length = 0 := by
      by_contra hlen
      have h1 : 1 ≤ (get_active_sboxes diff_characteristic).length := by omega
      have h16 : 16 ≤ (2 ^ 4) ^ (get_active_sboxes diff_characteristic).length := by
        calc (16 : Nat) = (2 ^ 4) ^ 1 := by norm_num
          _ ≤ (2 ^ 4) ^ (get_active_sboxes diff_characteristic).length :=
              Nat.pow_le_pow_right (by norm_num) h1
      omega
    exact List.length_eq_zero.mp hl

/-- **C2, counterexample** to the claim as stated: with one ciphertext
pair supplied and target characteristic `0` (no active nibble) the attack
returns no result, and with zero ciphertext pairs and target
characteristic `1` it does return a candidate. -/
theorem C2_attack_counterexample :
    perform_attack mainNet [(0, 0)] 0 = none ∧
    perform_attack mainNet [] 1 = some 1 := by
  exact ⟨by decide, by decide⟩

/-- Witness for C2: instantiating the amended theorem at the `main.py`
network with the characteristic `0x0606` produced by the analysis. -/
theorem C2_attack_some_iff_active_witness :
    (∃ k, perform_attack mainNet [] 1542 = some k) ↔
      get_active_sboxes 1542 ≠ [] :=
  C2_attack_some_iff_active mainNet [] 1542

/-! ### C6: first-maximum tie-breaking -/

theorem pyMaxBy_concat (f : Nat → Nat) (a b : Nat) (t : List Nat) :
    pyMaxBy ((a :: t) ++ [b]) f =
      (if f b > f (pyMaxBy (a :: t) f) then b else pyMaxBy (a :: t) f) := by
  show (t ++ [b]).foldl (fun acc y => if f y > f acc then y else acc) a = _
  rw [List.foldl_append]
  rfl

theorem range'_cons_1 (s n : Nat) : List.range' s (n + 1) = s :: List.range' (s + 1) n :=
  List.range'_succ s n 1

theorem range'_concat_1 (s n : Nat) :
    List.range' s (n + 1) = List.range' s n ++ [s + n] := by
  have h : List.range' s (n + 1) = List.range' s n ++ [s + 1 * n] :=
    List.range'_concat s n
  simpa using h

theorem pyMaxBy_range'_spec (f : Nat → Nat) (s : Nat) :
    ∀ n, 1 ≤ n →
      (s ≤ pyMaxBy (List.range' s n) f ∧ pyMaxBy (List.range' s n) f < s + n) ∧
      (∀ y, s ≤ y → y < s + n → f y ≤ f (pyMaxBy (List.range' s n) f)) ∧
      (∀ y, s ≤ y → y < pyMaxBy (List.range' s n) f →
        f y < f (pyMaxBy (List.range' s n) f)) := by
  intro n
  induction n with
  | zero => omega
  | succ n ih =>
      intro _
      by_cases hn : n = 0
      · subst hn
        have he : pyMaxBy (List.range' s 1) f = s := rfl
        rw [he]
        refine ⟨⟨Nat.le_refl s, by omega⟩, ?_, ?_⟩
        · intro y h1 h2
          have : y = s := by omega
          subst this
          exact Nat.le_refl _
        · intro y h1 h2
          omega
      · have hn1 : 1 ≤ n := by omega
        obtain ⟨⟨hm1, hm2⟩, hmax, hfirst⟩ := ih hn1
        have hrec : pyMaxBy (List.range' s (n + 1)) f =
            (if f (s + n) > f (pyMaxBy (List.range' s n) f) then s + n
             else pyMaxBy (List.range' s n) f) := by
          obtain ⟨m, rfl⟩ : ∃ m, n = m + 1 := ⟨n - 1, by omega⟩
          rw [range'_concat_1 s (m + 1), range'_cons_1 s m, pyMaxBy_concat,
            ← range'_cons_1 s m]
        rw [hrec]
        by_cases hc : f (s + n) > f (pyMaxBy (List.range' s n) f)
        · rw [if_pos hc]
          refine ⟨⟨by omega, by omega⟩, ?_, ?_⟩
          · intro y h1 h2
            rcases Nat.lt_or_ge y (s + n) with h | h
            · exact Nat.le_trans (hmax y h1 h) (Nat.le_of_lt hc)
            · have : y = s + n := by omega
              subst this
              exact Nat.le_refl _
          · intro y h1 h2
            exact Nat.lt_of_le_of_lt (hmax y h1 h2) hc
        · rw [if_neg hc]
          have hc2 : f (s + n) ≤ f (pyMaxBy (List.range' s n) f) := Nat.not_lt.mp hc
          refine ⟨⟨hm1, by omega⟩, ?_, ?_⟩
          · intro y h1 h2
            rcases Nat.lt_or_ge y (s + n) with h | h
            · exact hmax y h1 h
            · have : y = s + n := by omega
              subst this
              exact hc2
          · exact hfirst

theorem foldl_if_comp (F : Nat → Nat × Nat) :
    ∀ (t : List Nat) (a : Nat),
      t.foldl (fun acc y => if (F y).2 > acc.2 then F y else acc) (F a) =
        F (t.foldl (fun acc y => if (F y).2 > (F acc).2 then y else acc) a) := by
  intro t
  induction t with
  | nil => intro a; rfl
  | cons y t ih =>
      intro a
      simp only [List.foldl_cons]
      rw [← apply_ite F]
      exact ih (if (F y).2 > (F a).2 then y else a)

theorem pyMaxPairBy_map_eq (F : Nat → Nat × Nat) (a : Nat) (t : List Nat) :
    pyMaxPairBy ((a :: t).map F) =
      some ((F (pyMaxBy (a :: t) (fun y => (F y).2))).1) := by
  show some (((t.map F).foldl (fun acc q => if q.2 > acc.2 then q else acc) (F a)).1) = _
  rw [List.foldl_map, foldl_if_comp F t a]
  rfl

/-- **C6.**  Both maximum selections break ties by the first maximum in
ascending iteration order.  (a) `get_max_delta_y(Δx)` returns an output
difference below `data_size` whose row count is maximal, and every
smaller output difference has a strictly smaller count — i.e. it is the
smallest `Δy` attaining the row maximum.  (b) whenever `perform_attack`
returns a candidate `k`, there is an enumeration index `i` with
`k = convert_to_block(active, i)` whose pair count is maximal over all
enumerated candidates, while every earlier index `j < i` scores strictly
less — i.e. the candidate generated earliest among those attaining the
maximal count. -/
theorem C6_first_max_tie_breaking :
    (∀ (net : SP_Network) (delta_x : Nat), 1 ≤ net.data_size →
      get_max_delta_y net delta_x < net.data_size ∧
      (∀ dy < net.data_size,
        difference_distribution net delta_x dy ≤
          difference_distribution net delta_x (get_max_delta_y net delta_x)) ∧
      (∀ dy < get_max_delta_y net delta_x,
        difference_distribution net delta_x dy <
          difference_distribution net delta_x (get_max_delta_y net delta_x))) ∧
    (∀ (net : SP_Network) (pairs : List (Nat × Nat)) (diff k : Nat),
      perform_attack net pairs diff = some k →
      ∃ i, 1 ≤ i ∧ i < (2 ^ 4) ^ (get_active_sboxes diff).length ∧
        k = convert_to_block net (get_active_sboxes diff) i ∧
        (∀ j, 1 ≤ j → j < (2 ^ 4) ^ (get_active_sboxes diff).length →
          attack_count net pairs diff
              (convert_to_block net (get_active_sboxes diff) j) ≤
            attack_count net pairs diff
              (convert_to_block net (get_active_sboxes diff) i)) ∧
        (∀ j, 1 ≤ j → j < i →
          attack_count net pairs diff
              (convert_to_block net (get_active_sboxes diff) j) <
            attack_count net pairs diff
              (convert_to_block net (get_active_sboxes diff) i))) := by
  constructor
  · intro net delta_x hds
    have h := pyMaxBy_range'_spec
      (fun dy => difference_distribution net delta_x dy) 0 net.data_size hds
    rw [← List.range_eq_range'] at h
    obtain ⟨⟨_, hub⟩, hmax, hfirst⟩ := h
    refine ⟨by simpa using hub, ?_, ?_⟩
    · intro dy hdy
      exact hmax dy (Nat.zero_le _) (by omega)
    · intro dy hdy
      exact hfirst dy (Nat.zero_le _) hdy
  · intro net pairs diff k h
    have h2 : pyMaxPairBy ((List.range' 1
        ((2 ^ 4) ^ (get_active_sboxes diff).length - 1)).map
        (fun i => (convert_to_block net (get_active_sboxes diff) i,
          attack_count net pairs diff
            (convert_to_block net (get_active_sboxes diff) i)))) = some k := h
    rcases hc : (2 ^ 4) ^ (get_active_sboxes diff).length - 1 with _ | c
    · exfalso
      rw [hc] at h2
      exact Option.noConfusion h2
    · rw [hc, range'_cons_1 1 c, pyMaxPairBy_map_eq] at h2
      rw [← range'_cons_1 1 c] at h2
      have hk := Option.some.inj h2
      have hspec := pyMaxBy_range'_spec
        (fun y => (convert_to_block net (get_active_sboxes diff) y,
          attack_count net pairs diff
            (convert_to_block net (get_active_sboxes diff) y)).2)
        1 (c + 1) (by omega)
      obtain ⟨⟨hm1, hm2⟩, hmax, hfirst⟩ := hspec
      have hnum : 1 + (c + 1) = (2 ^ 4) ^ (get_active_sboxes diff).length := by
        have hpos : 1 ≤ (2 ^ 4) ^ (get_active_sboxes diff).length :=
          Nat.one_le_pow _ _ (by norm_num)
        omega
      refine ⟨pyMaxBy (List.range' 1 (c + 1))
        (fun y => (convert_to_block net (get_active_sboxes diff) y,
          attack_count net pairs diff
            (convert_to_block net (get_active_sboxes diff) y)).2), hm1, by omega,
        hk.symm, ?_, ?_⟩
      · intro j h1 h2
        exact hmax j h1 (by omega)
      · intro j h1 h2
        exact hfirst j h1 h2

/-- Witness for C6: part (a) at the `main.py` DDT row `Δx = 11`, part (b)
at the attack run with characteristic `1` (where the returned candidate
is `1`). -/
theorem C6_first_max_tie_breaking_witness :
    (get_max_delta_y mainNet 11 < mainNet.data_size ∧
      (∀ dy < mainNet.data_size,
        difference_distribution mainNet 11 dy ≤
          difference_distribution mainNet 11 (get_max_delta_y mainNet 11)) ∧
      (∀ dy < get_max_delta_y mainNet 11,
        difference_distribution mainNet 11 dy <
          difference_distribution mainNet 11 (get_max_delta_y mainNet 11))) ∧
    (∃ i, 1 ≤ i ∧ i < (2 ^ 4) ^ (get_active_sboxes 1).length ∧
      1 = convert_to_block mainNet (get_active_sboxes 1) i ∧
      (∀ j, 1 ≤ j → j < (2 ^ 4) ^ (get_active_sboxes 1).length →
        attack_count mainNet [] 1
            (convert_to_block mainNet (get_active_sboxes 1) j) ≤
          attack_count mainNet [] 1
            (convert_to_block mainNet (get_active_sboxes 1) i)) ∧
      (∀ j, 1 ≤ j → j < i →
        attack_count mainNet [] 1
            (convert_to_block mainNet (get_active_sboxes 1) j) <
          attack_count mainNet [] 1
            (convert_to_block mainNet (get_active_sboxes 1) i))) :=
  ⟨C6_first_max_tie_breaking.1 mainNet 11 (by decide),
   C6_first_max_tie_breaking.2 mainNet [] 1 1 (by decide)⟩

/-! ### C3, C9: difference-distribution-table invariants -/

theorem beq_eq_decide_nat (a b : Nat) : (a == b) = decide (a = b) := by
  by_cases h : a = b <;> simp [h]

theorem countP_lt_succ_split (g : Nat → Nat) (M : Nat) (l : List Nat) :
    l.countP (fun x => decide (g x < M + 1)) =
      l.countP (fun x => decide (g x < M)) + l.countP (fun x => g x == M) := by
  induction l with
  | nil => rfl
  | cons a l ih =>
      simp only [List.countP_cons]
      rw [ih]
      by_cases h1 : g a < M + 1 <;> by_cases h2 : g a < M <;> by_cases h3 : g a = M <;>
        simp [h1, h2, h3] <;> omega

theorem row_sum_eq_countP (net : SP_Network) (delta_x : Nat) (M : Nat) :
    Finset.sum (Finset.range M) (fun dy => difference_distribution net delta_x dy) =
      (List.range net.data_size).countP
        (fun x =>
          decide (net.sbox x false ^^^ net.sbox (x ^^^ delta_x) false < M)) := by
  induction M with
  | zero =>
      rw [Finset.range_zero, Finset.sum_empty]
      symm
      apply List.countP_eq_zero.mpr
      intro x _
      simp
  | succ M ih =>
      rw [Finset.sum_range_succ, ih, countP_lt_succ_split]
      rfl

/-- Helper: every row of the DDT built from a 16-entry substitution table
whose lookups stay inside the nibble domain sums to 16. -/
theorem ddt_row_sum {net : SP_Network} (hds : net.data_size = 16)
    (hval : ∀ v < 16, net.sbox v false < 16) {delta_x : Nat} (hdx : delta_x < 16) :
    Finset.sum (Finset.range 16) (fun dy => difference_distribution net delta_x dy)
      = 16 := by
  rw [row_sum_eq_countP]
  have hall : ∀ x ∈ List.range net.data_size,
      (fun x =>
        decide (net.sbox x false ^^^ net.sbox (x ^^^ delta_x) false < 16)) x = true := by
    intro x hx
    rw [List.mem_range, hds] at hx
    have h16 : (16 : Nat) = 2 ^ 4 := by norm_num
    have h1 : net.sbox x false < 16 := hval x hx
    have h2 : net.sbox (x ^^^ delta_x) false < 16 := by
      apply hval
      rw [h16] at hx hdx ⊢
      exact Nat.xor_lt_two_pow hx hdx
    rw [h16] at h1 h2
    simp only [decide_eq_true_eq, h16]
    exact Nat.xor_lt_two_pow h1 h2
  rw [List.countP_eq_length.mpr hall, List.length_range, hds]

/-- **C3.**  After the difference distribution table is built from any
total substitution table over the nibble domain `{0 .. 15}` (`D = 16`,
the table size of this cipher, with table values inside the domain),
every row sums to `D`: for every input difference `Δx < 16`, the sum over
all `Δy < 16` of `table[Δx][Δy]` equals `16` — every `x` contributes to
exactly one cell of its row. -/
theorem C3_ddt_row_sum (net : SP_Network) (hds : net.data_size = 16)
    (hval : ∀ v < 16, net.sbox v false < 16) :
    ∀ delta_x < 16,
      Finset.sum (Finset.range 16)
        (fun dy => difference_distribution net delta_x dy) = 16 :=
  fun _ hdx => ddt_row_sum hds hval hdx

/-- Witness for C3: the row `Δx = 3` of the `main.py` DDT sums to 16. -/
theorem C3_ddt_row_sum_witness :
    Finset.sum (Finset.range 16)
      (fun dy => difference_distribution mainNet 3 dy) = 16 :=
  C3_ddt_row_sum mainNet (by decide) (by decide) 3 (by decide)

theorem countP_range_eq_card_filter (n : Nat) (p : Nat → Prop) [DecidablePred p] :
    (List.range n).countP (fun x => decide (p x)) = ((Finset.range n).filter p).card := by
  induction n with
  | zero => simp
  | succ n ih =>
      rw [List.range_succ, List.countP_append, ih, Finset.range_succ,
        Finset.filter_insert]
      by_cases h : p n
      · rw [if_pos h, Finset.card_insert_of_not_mem (by simp)]
        simp [h]
      · rw [if_neg h]
        simp [h]

/-- **C9.**  Every entry of the difference distribution table built over
the even-sized nibble domain `D = 16` is even: for `Δx ≠ 0` the inputs
`x` and `x ⊕ Δx` land in the same cell in pairs, and for `Δx = 0` all 16
inputs land in cell `(0, 0)`. -/
theorem C9_ddt_entries_even (net : SP_Network) (hds : net.data_size = 16) :
    ∀ delta_x < 16, ∀ delta_y : Nat,
      difference_distribution net delta_x delta_y % 2 = 0 := by
  intro delta_x hdx delta_y
  have hpred : (fun x => net.sbox x false ^^^ net.sbox (x ^^^ delta_x) false == delta_y)
      = (fun x =>
          decide (net.sbox x false ^^^ net.sbox (x ^^^ delta_x) false = delta_y)) :=
    funext fun x => beq_eq_decide_nat _ _
  have hcard : difference_distribution net delta_x delta_y =
      ((Finset.range 16).filter
        (fun x => net.sbox x false ^^^ net.sbox (x ^^^ delta_x) false = delta_y)).card := by
    unfold difference_distribution
    rw [hds, hpred, countP_range_eq_card_filter]
  rw [hcard]
  by_cases h0 : delta_x = 0
  · subst h0
    by_cases hy : delta_y = 0
    · subst hy
      have he : (Finset.range 16).filter
          (fun x => net.sbox x false ^^^ net.sbox (x ^^^ 0) false = 0) =
          Finset.range 16 := by
        apply Finset.filter_true_of_mem
        intro x _
        rw [Nat.xor_zero, Nat.xor_self]
      rw [he, Finset.card_range]
    · have he : (Finset.range 16).filter
          (fun x => net.sbox x false ^^^ net.sbox (x ^^^ 0) false = delta_y) = ∅ := by
        apply Finset.filter_false_of_mem
        intro x _
        rw [Nat.xor_zero, Nat.xor_self]
        intro hc
        exact hy hc.symm
      rw [he, Finset.card_empty]
  · set S := (Finset.range 16).filter
      (fun x => net.sbox x false ^^^ net.sbox (x ^^^ delta_x) false = delta_y) with hS
    have hclosed : ∀ x ∈ S, x ^^^ delta_x ∈ S := by
      intro x hx
      rw [hS, Finset.mem_filter, Finset.mem_range] at hx ⊢
      have h16 : (16 : Nat) = 2 ^ 4 := by norm_num
      refine ⟨?_, ?_⟩
      · rw [h16]
        rw [h16] at hdx
        exact Nat.xor_lt_two_pow (by rw [← h16]; exact hx.1) hdx
      · rw [Nat.xor_cancel_right, Nat.xor_comm]
        exact hx.2
    have hnofix : ∀ x : Nat, x ≠ x ^^^ delta_x := by
      intro x he
      apply h0
      have h := congrArg (fun z => x ^^^ z) he
      simpa [← Nat.xor_assoc] using h.symm
    have hsplit : (S.filter (fun x => x < x ^^^ delta_x)).card +
        (S.filter (fun x => ¬ x < x ^^^ delta_x)).card = S.card :=
      Finset.filter_card_add_filter_neg_card_eq_card _
    have hbij : (S.filter (fun x => x < x ^^^ delta_x)).card =
        (S.filter (fun x => ¬ x < x ^^^ delta_x)).card := by
      apply Finset.card_nbij' (fun x => x ^^^ delta_x) (fun x => x ^^^ delta_x)
      · intro a ha
        rw [Finset.mem_filter] at ha ⊢
        refine ⟨hclosed a ha.1, ?_⟩
        rw [Nat.xor_cancel_right]
        omega
      · intro a ha
        rw [Finset.mem_filter] at ha ⊢
        have hne := hnofix a
        refine ⟨hclosed a ha.1, ?_⟩
        rw [Nat.xor_cancel_right]
        have := ha.2
        omega
      · intro a _
        exact Nat.xor_cancel_right delta_x a
      · intro a _
        exact Nat.xor_cancel_right delta_x a
    omega

/-- Witness for C9: the `main.py` DDT entry at `(Δx, Δy) = (11, 2)` (whose
value is 8) is even. -/
theorem C9_ddt_entries_even_witness :
    difference_distribution mainNet 11 2 % 2 = 0 :=
  C9_ddt_entries_even mainNet (by decide) 11 (by decide) 2

/-! ### C4: characteristic probability bounds -/

theorem testBit_fifteen (k : Nat) : (15 : Nat).testBit k = decide (k < 4) := by
  match k with
  | 0 => decide
  | 1 => decide
  | 2 => decide
  | 3 => decide
  | k + 4 =>
      have h : (15 : Nat) < 2 ^ (k + 4) := by
        calc (15 : Nat) < 2 ^ 4 := by norm_num
          _ ≤ 2 ^ (k + 4) := Nat.pow_le_pow_right (by norm_num) (by omega)
      rw [Nat.testBit_eq_false_of_lt h]
      simp

theorem nibble_testBit (X s k : Nat) :
    ((X >>> s) &&& 0xF).testBit k = (decide (k < 4) && X.testBit (s + k)) := by
  rw [show (0xF : Nat) = 15 from rfl, Nat.testBit_and, Nat.testBit_shiftRight,
    testBit_fifteen k, Bool.and_comm]

theorem shifted_nib_testBit {c : Nat} (hc : c < 16) (p t : Nat) :
    (c <<< p).testBit t =
      (decide (p ≤ t ∧ t < p + 4) && c.testBit (t - p)) := by
  rw [Nat.testBit_shiftLeft]
  rcases Nat.lt_or_ge t p with h | h
  · have h1 : decide (t ≥ p) = false := by simp; omega
    have h2 : decide (p ≤ t ∧ t < p + 4) = false := by simp; omega
    rw [h1, h2, Bool.false_and]
  · rcases Nat.lt_or_ge t (p + 4) with h4 | h4
    · have h1 : decide (t ≥ p) = true := by simp [h]
      have h2 : decide (p ≤ t ∧ t < p + 4) = true := by simp [h, h4]
      rw [h1, h2]
    · have h1 : decide (p ≤ t ∧ t < p + 4) = false := by simp; omega
      have hbit : c.testBit (t - p) = false := by
        apply Nat.testBit_eq_false_of_lt
        calc c < 16 := hc
          _ = 2 ^ 4 := by norm_num
          _ ≤ 2 ^ (t - p) := Nat.pow_le_pow_right (by norm_num) (by omega)
      rw [h1, hbit, Bool.false_and, Bool.and_false]

theorem gmd_lt {net : SP_Network} (hds1 : 1 ≤ net.data_size) (dx : Nat) :
    get_max_delta_y net dx < net.data_size := by
  have h := (pyMaxBy_range'_spec
    (fun dy => difference_distribution net dx dy) 0 net.data_size hds1).1.2
  rw [← List.range_eq_range'] at h
  simpa using h

theorem gmd_is_max {net : SP_Network} (hds1 : 1 ≤ net.data_size) (dx : Nat) :
    ∀ dy < net.data_size,
      difference_distribution net dx dy ≤
        difference_distribution net dx (get_max_delta_y net dx) := by
  intro dy hdy
  have h := (pyMaxBy_range'_spec
    (fun dy => difference_distribution net dx dy) 0 net.data_size hds1).2.1
  rw [← List.range_eq_range'] at h
  exact h dy (Nat.zero_le _) (by omega)

theorem mem_active_iff (u i : Nat) (hi : i < 4) :
    (4 - i) ∈ get_active_sboxes u ↔ 0 < (u >>> (i * 4)) &&& 0xF := by
  unfold get_active_sboxes
  rw [List.mem_map]
  constructor
  · rintro ⟨j, hj, he⟩
    rw [List.mem_filter, List.mem_range] at hj
    have hji : j = i := by omega
    subst hji
    simpa using hj.2
  · intro h
    refine ⟨i, ?_, rfl⟩
    rw [List.mem_filter, List.mem_range]
    exact ⟨hi, by simpa using h⟩

theorem active_mem_shape (u j : Nat) (hj : j ∈ get_active_sboxes u) :
    ∃ i < 4, j = 4 - i ∧ 0 < (u >>> (i * 4)) &&& 0xF := by
  unfold get_active_sboxes at hj
  rw [List.mem_map] at hj
  obtain ⟨i, hi, he⟩ := hj
  rw [List.mem_filter, List.mem_range] at hi
  exact ⟨i, hi.1, he.symm, by simpa using hi.2⟩

theorem god_nibble (net : SP_Network) (hds : net.data_size = 16) (u i : Nat)
    (hi : i < 4) :
    ((get_output_difference net u) >>> (i * 4)) &&& 0xF =
      (if (u >>> (i * 4)) &&& 0xF = 0 then 0
       else get_max_delta_y net ((u >>> (i * 4)) &&& 0xF)) := by
  have hds1 : 1 ≤ net.data_size := by omega
  have hgod : ∀ t, (get_output_difference net u).testBit t =
      (get_active_sboxes u).any (fun j =>
        ((get_max_delta_y net ((u >>> (net.data_size - j * 4)) &&& 0xF))
          <<< (net.data_size - j * 4)).testBit t) := by
    intro t
    have h : (get_output_difference net u).testBit t =
        ((0 : Nat).testBit t || (get_active_sboxes u).any (fun j =>
          ((get_max_delta_y net ((u >>> (net.data_size - j * 4)) &&& 0xF))
            <<< (net.data_size - j * 4)).testBit t)) :=
      foldl_or_testBit _ _ _ _
    rw [h, Nat.zero_testBit, Bool.false_or]
  rw [hds] at hgod
  apply Nat.eq_of_testBit_eq
  intro k
  rcases Nat.lt_or_ge k 4 with hk | hk
  · rw [nibble_testBit, hgod (i * 4 + k)]
    have hterm : ∀ j ∈ get_active_sboxes u,
        ((get_max_delta_y net ((u >>> (16 - j * 4)) &&& 0xF))
          <<< (16 - j * 4)).testBit (i * 4 + k) =
        (decide (j = 4 - i) &&
          (get_max_delta_y net ((u >>> (i * 4)) &&& 0xF)).testBit k) := by
      intro j hj
      obtain ⟨i2, hi2, rfl, hnz⟩ := active_mem_shape u j hj
      have hsh : 16 - (4 - i2) * 4 = i2 * 4 := by omega
      rw [hsh]
      have hgm : get_max_delta_y net ((u >>> (i2 * 4)) &&& 0xF) < 16 := by
        have := gmd_lt hds1 ((u >>> (i2 * 4)) &&& 0xF)
        omega
      rw [shifted_nib_testBit hgm]
      by_cases he : i2 = i
      · subst he
        have h1 : decide (i2 * 4 ≤ i2 * 4 + k ∧ i2 * 4 + k < i2 * 4 + 4) = true := by
          simp; omega
        have h2 : decide (4 - i2 = 4 - i2) = true := by simp
        rw [h1, h2, Bool.true_and, Bool.true_and]
        congr 1
        omega
      · have h1 : decide (i2 * 4 ≤ i * 4 + k ∧ i * 4 + k < i2 * 4 + 4) = false := by
          simp; omega
        have h2 : decide (4 - i2 = 4 - i) = false := by simp; omega
        rw [h1, h2, Bool.false_and, Bool.false_and]
    by_cases hz : (u >>> (i * 4)) &&& 0xF = 0
    · rw [if_pos hz, Nat.zero_testBit]
      have hfalse : (get_active_sboxes u).any (fun j =>
          ((get_max_delta_y net ((u >>> (16 - j * 4)) &&& 0xF))
            <<< (16 - j * 4)).testBit (i * 4 + k)) = false := by
        apply List.any_eq_false.mpr
        intro j hj
        rw [hterm j hj]
        by_cases he : j = 4 - i
        · subst he
          have := (mem_active_iff u i hi).mp hj
          omega
        · simp [he]
      rw [hfalse, Bool.and_false]
    · rw [if_neg hz]
      have hdk : decide (k < 4) = true := by simp [hk]
      rw [hdk, Bool.true_and]
      have hmem : (4 - i) ∈ get_active_sboxes u :=
        (mem_active_iff u i hi).mpr (by omega)
      cases hb : (get_max_delta_y net ((u >>> (i * 4)) &&& 0xF)).testBit k
      · apply List.any_eq_false.mpr
        intro j hj
        rw [hterm j hj, hb, Bool.and_false]
        simp
      · apply List.any_eq_true.mpr
        refine ⟨4 - i, hmem, ?_⟩
        rw [hterm (4 - i) hmem, hb]
        simp
  · have hL : (((get_output_difference net u) >>> (i * 4)) &&& 0xF) < 16 :=
      nibble_and_lt _ _
    have hR : (if (u >>> (i * 4)) &&& 0xF = 0 then 0
        else get_max_delta_y net ((u >>> (i * 4)) &&& 0xF)) < 16 := by
      split
      · norm_num
      · have := gmd_lt hds1 ((u >>> (i * 4)) &&& 0xF)
        omega
    have h2k : (16 : Nat) ≤ 2 ^ k := by
      calc (16 : Nat) = 2 ^ 4 := by norm_num
        _ ≤ 2 ^ k := Nat.pow_le_pow_right (by norm_num) hk
    rw [Nat.testBit_eq_false_of_lt (by omega), Nat.testBit_eq_false_of_lt (by omega)]

theorem ddt_le_16 {net : SP_Network} (hds : net.data_size = 16) (dx dy : Nat) :
    difference_distribution net dx dy ≤ 16 := by
  calc difference_distribution net dx dy ≤ (List.range net.data_size).length :=
        List.countP_le_length _
    _ = 16 := by rw [List.length_range, hds]

theorem ddt_gmd_pos {net : SP_Network} (hds : net.data_size = 16)
    (hval : ∀ v < 16, net.sbox v false < 16) {dx : Nat} (hdx : dx < 16) :
    1 ≤ difference_distribution net dx (get_max_delta_y net dx) := by
  have hds1 : 1 ≤ net.data_size := by omega
  have hsum := ddt_row_sum hds hval hdx
  by_contra h
  push_neg at h
  have hzero : ∀ dy ∈ Finset.range 16, difference_distribution net dx dy = 0 := by
    intro dy hdy
    rw [Finset.mem_range] at hdy
    have hle := gmd_is_max hds1 dx dy (by omega)
    omega
  rw [Finset.sum_eq_zero hzero] at hsum
  omega

theorem pair_prob_foldl_bounds (net : SP_Network) (hds : net.data_size = 16)
    (u v : Nat)
    (hfac : ∀ i, i < 4 →
      ¬((u >>> (i * 4)) &&& 0xF = 0 ∧ (v >>> (i * 4)) &&& 0xF = 0) →
      1 ≤ difference_distribution net ((u >>> (i * 4)) &&& 0xF)
        ((v >>> (i * 4)) &&& 0xF)) :
    0 < get_difference_pair_probability net u v ∧
      get_difference_pair_probability net u v ≤ 1 := by
  have main : ∀ (l : List Nat), (∀ i ∈ l, i < 4) → ∀ p : ℚ, 0 < p → p ≤ 1 →
      0 < l.foldl (fun probability i =>
        if (u >>> (i * 4)) &&& 0xF = 0 ∧ (v >>> (i * 4)) &&& 0xF = 0 then
          probability
        else
          probability *
            ((difference_distribution net ((u >>> (i * 4)) &&& 0xF)
                ((v >>> (i * 4)) &&& 0xF) : ℚ) / (net.data_size : ℚ))) p ∧
      l.foldl (fun probability i =>
        if (u >>> (i * 4)) &&& 0xF = 0 ∧ (v >>> (i * 4)) &&& 0xF = 0 then
          probability
        else
          probability *
            ((difference_distribution net ((u >>> (i * 4)) &&& 0xF)
                ((v >>> (i * 4)) &&& 0xF) : ℚ) / (net.data_size : ℚ))) p ≤ 1 := by
    intro l
    induction l with
    | nil =>
        intro _ p hp hp1
        exact ⟨hp, hp1⟩
    | cons a l ih =>
        intro hmem p hp hp1
        simp only [List.foldl_cons]
        by_cases hc : (u >>> (a * 4)) &&& 0xF = 0 ∧ (v >>> (a * 4)) &&& 0xF = 0
        · rw [if_pos hc]
          exact ih (fun i hi => hmem i (List.mem_cons_of_mem a hi)) p hp hp1
        · rw [if_neg hc]
          have ha4 : a < 4 := hmem a (List.mem_cons_self a l)
          have h1 := hfac a ha4 hc
          have h2 := ddt_le_16 hds ((u >>> (a * 4)) &&& 0xF) ((v >>> (a * 4)) &&& 0xF)
          have hq0 : (0 : ℚ) <
              (difference_distribution net ((u >>> (a * 4)) &&& 0xF)
                ((v >>> (a * 4)) &&& 0xF) : ℚ) / (net.data_size : ℚ) := by
            rw [hds]
            apply div_pos
            · exact_mod_cast Nat.lt_of_lt_of_le Nat.zero_lt_one h1
            · norm_num
          have hq1 : (difference_distribution net ((u >>> (a * 4)) &&& 0xF)
              ((v >>> (a * 4)) &&& 0xF) : ℚ) / (net.data_size : ℚ) ≤ 1 := by
            rw [hds, div_le_one (by norm_num)]
            exact_mod_cast h2
          exact ih (fun i hi => hmem i (List.mem_cons_of_mem a hi)) _
            (mul_pos hp hq0) (mul_le_one₀ hp1 (le_of_lt hq0) hq1)
  exact main (List.range 4) (fun i hi => List.mem_range.mp hi) 1 one_pos le_rfl

theorem pair_prob_god_bounds (net : SP_Network) (hds : net.data_size = 16)
    (hval : ∀ v < 16, net.sbox v false < 16) (u : Nat) :
    0 < get_difference_pair_probability net u (get_output_difference net u) ∧
      get_difference_pair_probability net u (get_output_difference net u) ≤ 1 := by
  apply pair_prob_foldl_bounds net hds
  intro i hi hne
  have hnib : (u >>> (i * 4)) &&& 0xF ≠ 0 := by
    intro h0
    apply hne
    refine ⟨h0, ?_⟩
    rw [god_nibble net hds u i hi, if_pos h0]
  rw [god_nibble net hds u i hi, if_neg hnib]
  exact ddt_gmd_pos hds hval (nibble_and_lt u _)

theorem diffCharRounds_bounds (net : SP_Network) (hds : net.data_size = 16)
    (hval : ∀ v < 16, net.sbox v false < 16) :
    ∀ (n : Nat) (u : Nat) (p : ℚ), 0 < p → p ≤ 1 →
      0 < (diffCharRounds net n (u, p)).2 ∧ (diffCharRounds net n (u, p)).2 ≤ 1 := by
  intro n
  induction n with
  | zero =>
      intro u p hp hp1
      exact ⟨hp, hp1⟩
  | succ n ih =>
      intro u p hp hp1
      have hq := pair_prob_god_bounds net hds hval u
      exact ih _ _ (mul_pos hp hq.1) (mul_le_one₀ hp1 (le_of_lt hq.1) hq.2)

/-- **C4.**  The probability returned by
`get_differential_characteristic(Δp)` lies in `(0, 1]` for every input
difference `Δp < 2^16` and every spec whose (in particular, bijective)
substitution table keeps nibble values inside the nibble domain.  Each of
the `rounds - 1` iterations multiplies by a per-nibble factor
`table[Δx][Δy] / 16` where `Δy` is the most frequent output difference of
a non-empty row, so every factor lies in `(0, 1]`.  (The Python `float`
is modelled as an exact rational.) -/
theorem C4_characteristic_probability_in_unit_interval (net : SP_Network)
    (hds : net.data_size = 16)
    (hval : ∀ v < 16, net.sbox v false < 16)
    (delta_p : Nat) (_hdp : delta_p < 2 ^ 16) :
    0 < (get_differential_characteristic net delta_p).2 ∧
      (get_differential_characteristic net delta_p).2 ≤ 1 :=
  diffCharRounds_bounds net hds hval _ delta_p 1 one_pos le_rfl

/-- Witness for C4: the characteristic computed in `main.py` from
`Δp = 0x0B00 = 2816` has probability in `(0, 1]` (its value is
`27/1024`). -/
theorem C4_characteristic_probability_witness :
    0 < (get_differential_characteristic mainNet 2816).2 ∧
      (get_differential_characteristic mainNet 2816).2 ≤ 1 :=
  C4_characteristic_probability_in_unit_interval mainNet (by decide) (by decide)
    2816 (by decide)

/-! ### C5: the permutation's bit mapping -/

/-- **C5.**  For every input `data < 2^N` and every permutation table
defined on the 1-indexed positions `{1 .. N}` (with values in `{1 .. N}`,
so every shift in the loop is non-negative), the output bit of
`permute(data)` at 0-indexed position `N - i` equals the input bit at
0-indexed position `N - permutation[i]`, for each `i` from 1 to `N`. -/
theorem C5_permute_bit_mapping (net : SP_Network) (x : Nat)
    (_hx : x < 2 ^ net.data_size)
    (_hdef : ∀ j, 1 ≤ j → j ≤ net.data_size →
      1 ≤ dictGet net.permutation j ∧ dictGet net.permutation j ≤ net.data_size)
    (i : Nat) (h1 : 1 ≤ i) (h2 : i ≤ net.data_size) :
    (net.permute x).testBit (net.data_size - i) =
      x.testBit (net.data_size - dictGet net.permutation i) :=
  permute_testBit net x h1 h2

/-- Witness for C5: bit 14 (= 16 − 2) of `permute(0x1234)` on the
`main.py` network equals bit 11 (= 16 − permutation[2] = 16 − 5) of the
input. -/
theorem C5_permute_bit_mapping_witness :
    (mainNet.permute 4660).testBit (mainNet.data_size - 2) =
      (4660 : Nat).testBit (mainNet.data_size - dictGet mainNet.permutation 2) :=
  C5_permute_bit_mapping mainNet 4660 (by decide) (by decide) 2 (by decide) (by decide)

/-! ### C10: range preservation -/

theorem decryptRounds_lt {net : SP_Network}
    (h4 : 4 ∣ net.data_size)
    (hk : ∀ k ∈ net.keys, k < 2 ^ net.data_size)
    (hsinv : ∀ v < 16, net.sbox v true < 16) :
    ∀ (c : Nat) {x : Nat}, x < 2 ^ net.data_size →
      net.decryptRounds c x < 2 ^ net.data_size := by
  intro c
  induction c with
  | zero => intro x hx; exact hx
  | succ c ih =>
      intro x hx
      show net.decryptRounds c (net.run_reverse_round c x) < 2 ^ net.data_size
      exact ih (keymix_lt hk (substitute_lt_data_size h4 hsinv _) _)

theorem encrypt_lt {net : SP_Network}
    (h4 : 4 ∣ net.data_size)
    (hk : ∀ k ∈ net.keys, k < 2 ^ net.data_size)
    (hs : ∀ v < 16, net.sbox v false < 16)
    {x : Nat} (_hx : x < 2 ^ net.data_size) :
    net.encrypt x < 2 ^ net.data_size := by
  unfold SP_Network.encrypt SP_Network.run_last_round
  exact keymix_lt hk (substitute_lt_data_size h4 hs _) _

theorem decrypt_lt {net : SP_Network}
    (h4 : 4 ∣ net.data_size)
    (hk : ∀ k ∈ net.keys, k < 2 ^ net.data_size)
    (hsinv : ∀ v < 16, net.sbox v true < 16)
    {x : Nat} (_hx : x < 2 ^ net.data_size) :
    net.decrypt x < 2 ^ net.data_size := by
  unfold SP_Network.decrypt SP_Network.run_reverse_last_round
  exact decryptRounds_lt h4 hk hsinv _
    (keymix_lt hk (substitute_lt_data_size h4 hsinv _) _)

/-- **C10 (amended).**  Range preservation without masking holds when, in
addition to the round keys lying in `[0, 2^N)` and the substitution-table
values lying in `[0, 16)`, the substitution-table **keys** also lie in
`[0, 16)` — the inverse substitution used by `decrypt` looks up table
keys, so bounding only the values is not enough (see
`C10_range_counterexample`).  Under these hypotheses (with the block
width a multiple of 4, as required for the Python shifts to be legal),
`keymix`, `substitute` (in both directions), `permute`, `encrypt` and
`decrypt` each map `[0, 2^N)` into `[0, 2^N)` with no explicit masking. -/
theorem C10_range_preservation (net : SP_Network)
    (h4 : 4 ∣ net.data_size)
    (hk : ∀ k ∈ net.keys, k < 2 ^ net.data_size)
    (hsub : ∀ p ∈ net.substitution, p.1 < 16 ∧ p.2 < 16)
    (x : Nat) (hx : x < 2 ^ net.data_size) :
    (∀ r : Int, net.keymix r x < 2 ^ net.data_size) ∧
    (∀ invert : Bool, net.substitute x invert < 2 ^ net.data_size) ∧
    net.permute x < 2 ^ net.data_size ∧
    net.encrypt x < 2 ^ net.data_size ∧
    net.decrypt x < 2 ^ net.data_size := by
  have hs : ∀ v < 16, net.sbox v false < 16 :=
    fun v _ => sbox_lt_of_values_lt (by norm_num) (fun p hp => (hsub p hp).2) v
  have hsinv : ∀ v < 16, net.sbox v true < 16 :=
    fun v _ => sbox_inv_lt_of_keys_lt (by norm_num) (fun p hp => (hsub p hp).1) v
  refine ⟨fun r => keymix_lt hk hx r, ?_, permute_lt net x, ?_, ?_⟩
  · intro invert
    cases invert with
    | false => exact substitute_lt_data_size h4 hs x
    | true => exact substitute_lt_data_size h4 hsinv x
  · exact encrypt_lt h4 hk hs hx
  · exact decrypt_lt h4 hk hsinv hx

/-- **C10, counterexample** to the claim as stated: `badNet` has round
keys in `[0, 2^16)` and every substitution-table **value** in `[0, 16)`,
yet `decrypt(0)` (which consults the inverse substitution, whose values
are the table's keys) produces a result `≥ 2^16`. -/
theorem C10_range_counterexample :
    badNet.data_size = 16 ∧
    4 ∣ badNet.data_size ∧
    (∀ k ∈ badNet.keys, k < 2 ^ 16) ∧
    (∀ p ∈ badNet.substitution, p.2 < 16) ∧
    (0 : Nat) < 2 ^ 16 ∧
    ¬ badNet.decrypt 0 < 2 ^ 16 := by
  refine ⟨rfl, by decide, by decide, by decide, by decide, by decide⟩

/-- Witness for C10: the amended preservation theorem applies to the
`main.py` network and the plaintext 782. -/
theorem C10_range_preservation_witness :
    (∀ r : Int, mainNet.keymix r 782 < 2 ^ mainNet.data_size) ∧
    (∀ invert : Bool, mainNet.substitute 782 invert < 2 ^ mainNet.data_size) ∧
    mainNet.permute 782 < 2 ^ mainNet.data_size ∧
    mainNet.encrypt 782 < 2 ^ mainNet.data_size ∧
    mainNet.decrypt 782 < 2 ^ mainNet.data_size :=
  C10_range_preservation mainNet (by decide) (by decide) (by decide) 782 (by decide)
